import Mathlib

/-!
Verification of the terminal coding-agent CLI (Go, single `main` package).

The development shallowly embeds the pure logic of the program:

* the Go `strings` / `path/filepath` helpers the program relies on
  (`TrimSpace`, `ToLower`, `Count`, `Replace(_,_,_,1)`, `Clean`, `IsAbs`,
  `Join`, `Abs`, `Rel`), modelled for Unix (separator `/`), bytes as `Char`;
* `resolveWorkspaceFileForWrite` / `resolveWorkspaceFile` (path sandbox);
* the filesystem effects of `writeFile` and `editFiles` as explicit
  state-passing over the targeted entry;
* the bash tool: parameter clamping, `truncateOutput`, and the
  outcome-to-result translation of `bashTool`;
* the per-turn tool dispatch loop of `runChatLoop` (round cap and
  repeated-failure cap) as a recursion over a script of model responses.
-/

namespace CodingAgent

/-! ## Constants from the Go source -/

def defaultBashTimeoutSeconds : Int := 30

def hardBashTimeoutSeconds : Int := 120

def defaultBashMaxOutputBytes : Int := 32000

def hardBashMaxOutputBytes : Int := 256000

def maxToolRoundsPerTurn : Nat := 16

def maxRepeatedToolFailures : Nat := 2

/-! ## Go `strings` helpers -/

/-- Models Go `unicode.IsSpace` on the Latin-1 range (the whitespace runes
`' '`, `\t`, `\n`, `\v`, `\f`, `\r`, U+0085, U+00A0). -/
def goIsSpace (c : Char) : Bool :=
  c = ' ' || c = '\t' || c = '\n' || c = '\x0B' || c = '\x0C' || c = '\r' ||
  c = '\x85' || c = '\xA0'

/-- Models Go `strings.TrimSpace` on a list of characters. -/
def goTrimSpaceL (l : List Char) : List Char :=
  ((l.dropWhile goIsSpace).reverse.dropWhile goIsSpace).reverse

/-- Models Go `strings.TrimSpace`. -/
def goTrimSpace (s : String) : String :=
  String.mk (goTrimSpaceL s.toList)

/-- ASCII lower-casing of a single character (the fragment of Go
`strings.ToLower` exercised by the error messages of the program). -/
def asciiToLower (c : Char) : Char :=
  if 'A' ≤ c ∧ c ≤ 'Z' then Char.ofNat (c.toNat + 32) else c

/-- Models Go `strings.ToLower` (ASCII fragment) on a list of characters. -/
def goToLowerL (l : List Char) : List Char :=
  l.map asciiToLower

/-- Models `isToolInputValidationError` from the source:
`strings.HasPrefix(strings.ToLower(strings.TrimSpace(resultText)), "invalid ")`. -/
def isToolInputValidationError (resultText : String) : Bool :=
  "invalid ".toList.isPrefixOf (goToLowerL (goTrimSpaceL resultText.toList))

/-! ## `path/filepath` model (Unix rules, separator `/`) -/

/-- Split a character list at every `'/'` (boundaries kept as empty chunks),
the segment view used by the lexical path algorithms below. -/
def splitSlash : List Char → List (List Char)
  | [] => [[]]
  | c :: cs =>
    if c = '/' then [] :: splitSlash cs
    else
      match splitSlash cs with
      | [] => [[c]]
      | s :: ss => (c :: s) :: ss

/-- Join segments with `'/'`. -/
def intercalateSlash : List (List Char) → List Char
  | [] => []
  | s :: rest =>
    s ++ (match rest with
          | [] => []
          | _ :: _ => '/' :: intercalateSlash rest)

/-- Models Go `filepath.IsAbs` on Unix: the path starts with `/`. -/
def isAbsL : List Char → Bool
  | [] => false
  | c :: _ => c == '/'

/-- Stack processing behind `filepath.Clean`: drop empty and `.` segments,
resolve `..` against the preceding element (or drop it at the root of a
rooted path / keep it at the front of a relative path).  `acc` is the
reversed stack of retained segments. -/
def cleanStack (rooted : Bool) : List (List Char) → List (List Char) → List (List Char)
  | acc, [] => acc.reverse
  | acc, s :: rest =>
    if s = [] ∨ s = ['.'] then cleanStack rooted acc rest
    else if s = ['.', '.'] then
      match acc with
      | [] => if rooted then cleanStack rooted [] rest else cleanStack rooted [s] rest
      | t :: ts =>
        if t = ['.', '.'] then cleanStack rooted (s :: acc) rest
        else cleanStack rooted ts rest
    else cleanStack rooted (s :: acc) rest

/-- Models Go `filepath.Clean` (Unix) by its documented lexical rules. -/
def cleanL (p : List Char) : List Char :=
  if p = [] then ['.']
  else if isAbsL p then '/' :: intercalateSlash (cleanStack true [] (splitSlash p))
  else
    let segs := cleanStack false [] (splitSlash p)
    if segs = [] then ['.'] else intercalateSlash segs

/-- The escape test the source applies to a cleaned or re-derived relative
path: `clean == ".." || strings.HasPrefix(clean, "../")`. -/
def escapesL (l : List Char) : Bool :=
  l == ['.', '.'] || ['.', '.', '/'].isPrefixOf l

/-- Models Go `filepath.Join(a, b)` (Unix): empty elements are skipped and
the slash-joined result is cleaned. -/
def goJoinL (a b : List Char) : List Char :=
  if a = [] ∧ b = [] then []
  else if a = [] then cleanL b
  else if b = [] then cleanL a
  else cleanL (a ++ '/' :: b)

/-- Models Go `filepath.Abs` (Unix) with the working directory passed
explicitly: an absolute path is cleaned, a relative one joined onto `cwd`. -/
def goAbsL (cwd p : List Char) : List Char :=
  if isAbsL p then cleanL p else goJoinL cwd p

/-- Segment view used by `filepath.Rel`: `""` has no elements, `/` has a
single empty element, any other cleaned path splits at `/`. -/
def relSegsL (p : List Char) : List (List Char) :=
  if p = [] then [] else if p = ['/'] then [[]] else splitSlash p

/-- Strip the longest common leading run of equal segments from two
segment lists, returning both remainders. -/
def stripCommon : List (List Char) → List (List Char) → List (List Char) × List (List Char)
  | b :: bs, t :: ts => if b = t then stripCommon bs ts else (b :: bs, t :: ts)
  | bs, ts => (bs, ts)

/-- Models Go `filepath.Rel(base, targ)` (Unix, no volume names): clean both,
equal paths give `.`, mixed rootedness is an error, otherwise strip the
common segments; a leading `..` among the remaining base segments is an
error, else climb with one `..` per remaining base segment and descend into
the remaining target segments. -/
def relL (basep targp : List Char) : Except String (List Char) :=
  let base := cleanL basep
  let targ := cleanL targp
  if targ = base then .ok ['.']
  else
    let base := if base = ['.'] then [] else base
    if (isAbsL base ≠ isAbsL targ) then .error "Rel: cannot make target relative to base"
    else
      let rems := stripCommon (relSegsL base) (relSegsL targ)
      match rems.1 with
      | [] => .ok (intercalateSlash rems.2)
      | b :: bs =>
        if b = ['.', '.'] then .error "Rel: cannot make target relative to base"
        else .ok (intercalateSlash (List.replicate (bs.length + 1) ['.', '.'] ++ rems.2))

/-! ## The path sandbox (`resolveWorkspaceFileForWrite` / `resolveWorkspaceFile`) -/

/-- Models `resolveWorkspaceFileForWrite` from the source, with the working
directory passed explicitly (the Go code reads it via `os.Getwd`); on
success returns the absolute path and the workspace-relative display path
(`filepath.ToSlash` is the identity on Unix). -/
def resolveWorkspaceFileForWrite (cwd pathArg : String) : Except String (String × String) :=
  if goTrimSpaceL pathArg.toList = [] then .error "path is required"
  else if isAbsL (goTrimSpaceL pathArg.toList) then
    .error "path must be relative to the current workspace"
  else if cleanL (goTrimSpaceL pathArg.toList) = ['.'] then .error "path must point to a file"
  else if escapesL (cleanL (goTrimSpaceL pathArg.toList)) then
    .error "path escapes the current workspace"
  else
    match relL cwd.toList
        (goAbsL cwd.toList (goJoinL cwd.toList (cleanL (goTrimSpaceL pathArg.toList)))) with
    | .error _ => .error "failed to resolve relative path"
    | .ok r =>
      if escapesL r then .error "path escapes the current workspace"
      else
        .ok (String.mk (goAbsL cwd.toList (goJoinL cwd.toList (cleanL (goTrimSpaceL pathArg.toList)))),
             String.mk r)

/-- Models `resolveWorkspaceFile` from the source.  `stat` abstracts
`os.Stat` at the resolved absolute path: `none` means the stat fails (no
such entry), `some b` means the entry exists with `IsDir() = b`. -/
def resolveWorkspaceFile (stat : String → Option Bool) (cwd pathArg : String) :
    Except String (String × String) :=
  if goTrimSpaceL pathArg.toList = [] then .error "path is required"
  else if isAbsL (goTrimSpaceL pathArg.toList) then
    .error "path must be relative to the current workspace"
  else if cleanL (goTrimSpaceL pathArg.toList) = ['.'] then .error "path must point to a file"
  else if escapesL (cleanL (goTrimSpaceL pathArg.toList)) then
    .error "path escapes the current workspace"
  else
    match relL cwd.toList
        (goAbsL cwd.toList (goJoinL cwd.toList (cleanL (goTrimSpaceL pathArg.toList)))) with
    | .error _ => .error "failed to resolve relative path"
    | .ok r =>
      if escapesL r then .error "path escapes the current workspace"
      else
        match stat (String.mk (goAbsL cwd.toList (goJoinL cwd.toList (cleanL (goTrimSpaceL pathArg.toList))))) with
        | none => .error "failed to access path"
        | some true => .error ("path is a directory: " ++ String.mk r)
        | some false =>
          .ok (String.mk (goAbsL cwd.toList (goJoinL cwd.toList (cleanL (goTrimSpaceL pathArg.toList)))),
               String.mk r)

/-- A well-formed workspace root as produced by `os.Getwd`: an absolute
path that is a fixed point of `filepath.Clean`. -/
def WfCwd (cwd : String) : Prop :=
  cwd.toList.head? = some '/' ∧ cleanL cwd.toList = cwd.toList

/-- Canonical rooted segment list of an absolute path (the directory chain
below `/`). -/
def rootedSegs (l : List Char) : List (List Char) :=
  cleanStack true [] (splitSlash l)

/-- `abs` lies inside the workspace rooted at `cwd`: the directory
chain of the root is a prefix of the chain of the resolved path. -/
def withinRoot (cwd abs : String) : Prop :=
  rootedSegs cwd.toList <+: rootedSegs abs.toList

/-! ## Go `strings.Count` / `strings.Replace` (as used by `editFiles`) -/

/-- Non-overlapping occurrence scan behind Go `strings.Count` for a
non-empty substring: on a match, skip past the whole matched copy. -/
def countAux : List Char → List Char → Nat
  | [], _ => 0
  | c :: rest, sub =>
    if sub ≠ [] ∧ sub.isPrefixOf (c :: rest) then
      countAux ((c :: rest).drop sub.length) sub + 1
    else countAux rest sub
termination_by l _ => l.length
decreasing_by
  · rename_i h
    have hlen : 0 < sub.length := List.length_pos.mpr h.1
    simp only [List.length_drop, List.length_cons]
    omega
  · simp only [List.length_cons]
    omega

/-- Models Go `strings.Count` (byte view): the empty substring counts
length + 1, otherwise non-overlapping matches are counted left to right. -/
def goCount (s sub : List Char) : Nat :=
  if sub = [] then s.length + 1 else countAux s sub

/-- Replace the leftmost occurrence of a non-empty `old` by `new`. -/
def replaceFirstAux (old new : List Char) : List Char → List Char
  | [] => []
  | c :: rest =>
    if old.isPrefixOf (c :: rest) then new ++ (c :: rest).drop old.length
    else c :: replaceFirstAux old new rest

/-- Models Go `strings.Replace(s, old, new, 1)` (byte view). -/
def goReplace1 (s old new : List Char) : List Char :=
  if old = [] then new ++ s else replaceFirstAux old new s

/-- Number of positions of `s` at which `sub` occurs as a substring
(overlapping occurrences counted separately); this is the plain
"occurs n times" notion, as opposed to the non-overlapping Go `strings.Count`. -/
def occurrenceCount (s sub : List Char) : Nat :=
  ((List.range (s.length + 1)).filter (fun i => sub.isPrefixOf (s.drop i))).length

/-! ## Filesystem tool models (`writeFile`, `editFiles`)

The filesystem state at the resolved path is explicit: absent, a regular
file with its content, or a directory.  Each model mirrors the Go tool body
after JSON validation and path resolution, returning the tool result (or
error) together with the new state of the entry. -/

inductive FsEntry where
  | absent
  | file (content : String)
  | dir
deriving DecidableEq

/-- The worked example `writeFile` attaches to validation errors. -/
def writeFileExpectedInput : String :=
  "\x7b\"path\":\"src/main.py\",\"content\":\"print(\\\"hello\\\")\",\"overwrite\":true\x7d"

/-- The worked example `editFiles` attaches to validation errors. -/
def editFilesExpectedInput : String :=
  "\x7b\"path\":\"src/main.py\",\"old_str\":\"before\",\"new_str\":\"after\"\x7d"

/-- The validation error `writeFile` reports for an existing file without
`overwrite=true`, as built by `toolInputValidationError`. -/
def writeFileExistsMessage (displayPath : String) : String :=
  "invalid " ++ ("write_file input: file already exists: " ++ displayPath ++
    " (set overwrite=true to replace it). expected input like " ++ writeFileExpectedInput)

/-- Models `writeFile` from the source at the resolved path `displayPath`:
refuse directories, refuse an existing file unless `overwrite` (a
validation-class error built by `toolInputValidationError`), else write
`content`. -/
def writeFileApply (displayPath : String) (entry : FsEntry) (content : String)
    (overwrite : Bool) : Except String String × FsEntry :=
  match entry with
  | .dir => (.error ("path is a directory: " ++ displayPath), .dir)
  | .file existing =>
    if !overwrite then (.error (writeFileExistsMessage displayPath), .file existing)
    else (.ok ("wrote file " ++ displayPath), .file content)
  | .absent => (.ok ("wrote file " ++ displayPath), .file content)

/-- The `old_str == new_str` validation error of `editFiles`. -/
def editFilesNoOpMessage : String :=
  "invalid " ++ "edit_files input: \"old_str\" and \"new_str\" must be different. " ++
  "expected input like " ++ editFilesExpectedInput

/-- Models `editFiles` from the source at the resolved path `displayPath`:
`old_str == new_str` is rejected before touching the filesystem; an absent
file is created from `new_str` only when `old_str` is empty; on an existing
file an empty `old_str` appends, otherwise the occurrence count (Go
`strings.Count`) must be exactly one and the single occurrence is replaced
(`strings.Replace` with limit 1). -/
def editFilesApply (displayPath : String) (entry : FsEntry) (oldStr newStr : String) :
    Except String String × FsEntry :=
  if oldStr = newStr then (.error editFilesNoOpMessage, entry)
  else
    match entry with
    | .absent =>
      if oldStr ≠ "" then
        (.error ("file does not exist: " ++ displayPath ++
                 " (old_str must be empty to create it; otherwise use write_file)"),
         .absent)
      else (.ok ("created file " ++ displayPath), .file newStr)
    | .dir => (.error ("path is a directory: " ++ displayPath), .dir)
    | .file content =>
      if oldStr = "" then (.ok ("edited file " ++ displayPath), .file (content ++ newStr))
      else if goCount content.toList oldStr.toList = 0 then
        (.error ("old_str not found in file: " ++ displayPath), .file content)
      else if goCount content.toList oldStr.toList > 1 then
        (.error ("old_str appears multiple times in file: " ++ displayPath ++
                 "; provide more specific text"),
         .file content)
      else
        (.ok ("edited file " ++ displayPath),
         .file (String.mk (goReplace1 content.toList oldStr.toList newStr.toList)))

/-! ## Bash tool model -/

/-- The worked example `bashTool` attaches to validation errors. -/
def bashExpectedInput : String :=
  "\x7b\"command\":\"python3 app.py\",\"timeout_seconds\":30\x7d"

/-- Models the command-field resolution of `bashTool`: start from `command`
(empty when absent), fall back to `cmd` when `command` is whitespace-only
and `cmd` is present, trim, and reject an empty result. -/
def bashResolveCommand (command cmd : Option String) : Except String String :=
  let c0 := match command with | some s => s | none => ""
  let c1 := if goTrimSpace c0 = "" then (match cmd with | some s => s | none => c0) else c0
  if goTrimSpace c1 = "" then
    .error ("invalid " ++ "bash input: missing required field \"command\". " ++
            "expected input like " ++ bashExpectedInput)
  else .ok (goTrimSpace c1)

/-- Models the `timeout_seconds` handling of `bashTool`: the default unless
the request is positive, then capped at the hard maximum. -/
def bashTimeoutSeconds (requested : Int) : Int :=
  let t := if requested > 0 then requested else defaultBashTimeoutSeconds
  if t > hardBashTimeoutSeconds then hardBashTimeoutSeconds else t

/-- Models the `max_output_bytes` handling of `bashTool`: the default
unless the request is positive, then capped at the hard maximum. -/
def bashMaxOutputBytes (requested : Int) : Int :=
  let m := if requested > 0 then requested else defaultBashMaxOutputBytes
  if m > hardBashMaxOutputBytes then hardBashMaxOutputBytes else m

/-- Models `truncateOutput` from the source (bytes as `Char`): a
non-positive cap falls back to the default, output within the cap passes
through, longer output is cut to exactly `maxBytes` bytes with the
truncation flag set. -/
def truncateOutput (output : List Char) (maxBytes : Int) : String × Bool :=
  let maxBytes := if maxBytes < 1 then defaultBashMaxOutputBytes else maxBytes
  if (output.length : Int) ≤ maxBytes then (String.mk output, false)
  else (String.mk (output.take maxBytes.toNat), true)

/-- Outcome of the subprocess run inside `bashTool`: the deadline fired
(`ctx.Err() == context.DeadlineExceeded`), the process ran and exited with
a code (`0` meaning `cmd.CombinedOutput` returned no error, nonzero an
`exec.ExitError`), or the command could not be executed at all. -/
inductive RunOutcome where
  | timedOut
  | exited (code : Int)
  | startFailure (msg : String)

/-- The fixed sentinel for a successful silent command. -/
def noOutputSentinel : String := "Command completed successfully with no output."

/-- The truncation notice appended to truncated bash output. -/
def truncationNotice (maxOutputBytes : Int) : String :=
  "\n\n(output truncated at max_output_bytes=" ++ toString maxOutputBytes ++ ")"

/-- Models the result construction of `bashTool` after the subprocess has
run: truncate and trim the combined output, then branch on timeout /
exit-code / start-failure exactly as the source does. -/
def bashToolResult (outcome : RunOutcome) (output : List Char)
    (timeoutSeconds maxOutputBytes : Int) : Except String String :=
  let tr := truncateOutput output maxOutputBytes
  let trimmedOutput := goTrimSpace tr.1
  match outcome with
  | .timedOut =>
    .ok ("Command timed out after " ++ toString timeoutSeconds ++ " seconds." ++
         (if trimmedOutput ≠ "" then "\n\nPartial output:\n" ++ trimmedOutput else "") ++
         (if tr.2 then truncationNotice maxOutputBytes else ""))
  | .exited code =>
    if code ≠ 0 then
      .ok ("Command exited with code " ++ toString code ++ "." ++
           (if trimmedOutput ≠ "" then "\n\nOutput:\n" ++ trimmedOutput else "") ++
           (if tr.2 then truncationNotice maxOutputBytes else ""))
    else if trimmedOutput = "" then .ok noOutputSentinel
    else if tr.2 then .ok (trimmedOutput ++ truncationNotice maxOutputBytes)
    else .ok trimmedOutput
  | .startFailure msg => .error ("failed to execute command: " ++ msg)

/-- Result-class discriminator for `Except`. -/
def exceptIsOk {ε α : Type} : Except ε α → Bool
  | .ok _ => true
  | .error _ => false

instance {ε α : Type} [DecidableEq ε] [DecidableEq α] : DecidableEq (Except ε α) := fun x y =>
  match x, y with
  | .ok a, .ok b =>
    if h : a = b then isTrue (by rw [h])
    else isFalse (by intro he; injection he with h2; exact h h2)
  | .ok _, .error _ => isFalse (by intro he; exact Except.noConfusion he)
  | .error _, .ok _ => isFalse (by intro he; exact Except.noConfusion he)
  | .error e, .error f =>
    if h : e = f then isTrue (by rw [h])
    else isFalse (by intro he; injection he with h2; exact h h2)

/-! ## Per-turn tool dispatch loop (`runChatLoop` inner loop) -/

/-- One tool call as dispatched in a round: the model-chosen tool name, the
raw JSON input, and whether `runTool` reported an error result. -/
structure ToolCall where
  name : String
  input : String
  isFailure : Bool
deriving DecidableEq

/-- One model round trip as seen by the inner loop: a transport/provider
failure, or a message carrying the tool calls of the round (possibly none). -/
inductive ModelResponse where
  | failure
  | message (toolCalls : List ToolCall)
deriving DecidableEq

/-- How the inner loop of a turn ends. -/
inductive TurnOutcome where
  | apiError
  | modelFinished
  | stopped (msg : String)
  | outOfScript
deriving DecidableEq

/-- The failure signature of a round: `name + "=" + TrimSpace(input)` per
call, joined with `|`. -/
def failureSignature (calls : List ToolCall) : String :=
  String.intercalate "|" (calls.map (fun tc => tc.name ++ "=" ++ goTrimSpace tc.input))

/-- The fixed stop message of the round cap. -/
def maxRoundsStopMessage : String :=
  "Stopped after " ++ toString maxToolRoundsPerTurn ++
  " tool rounds in this turn to prevent a tool loop. Please provide corrected instructions and try again."

/-- The fixed stop message of the repeated-failure cap. -/
def repeatedFailuresStopMessage : String :=
  "Stopping tool loop after repeated identical tool failures. I need corrected tool inputs to continue."

/-- The inner per-turn loop of `runChatLoop`, driven by a script of model
responses; returns the number of model calls made together with the way
the turn ended.  State: `call` (rounds so far), `lastFailureSignature`, and
`repeatedFailureCount`, exactly as in the source. -/
def runTurnAux : Nat → String → Nat → List ModelResponse → Nat × TurnOutcome
  | call, lastSig, rc, resps =>
    if call ≥ maxToolRoundsPerTurn then (call, .stopped maxRoundsStopMessage)
    else
      match resps with
      | [] => (call, .outOfScript)
      | resp :: rest =>
        match resp with
        | .failure => (call + 1, .apiError)
        | .message toolCalls =>
          if toolCalls.isEmpty then (call + 1, .modelFinished)
          else if toolCalls.all (fun tc => tc.isFailure) then
            if (if failureSignature toolCalls = lastSig then rc + 1 else 1) ≥
                maxRepeatedToolFailures then
              (call + 1, .stopped repeatedFailuresStopMessage)
            else
              runTurnAux (call + 1) (failureSignature toolCalls)
                (if failureSignature toolCalls = lastSig then rc + 1 else 1) rest
          else runTurnAux (call + 1) "" 0 rest

/-- A fresh turn: counters start at zero with an empty last signature. -/
def runTurn (resps : List ModelResponse) : Nat × TurnOutcome :=
  runTurnAux 0 "" 0 resps

/-- A round in which the model requested at least one tool call and at
least one call succeeded (so neither failure-related stop can fire). -/
def isSuccessfulToolRound (resp : ModelResponse) : Bool :=
  match resp with
  | .message calls => !calls.isEmpty && !calls.all (fun tc => tc.isFailure)
  | .failure => false

/-! ## Auxiliary predicates used in the statements and proofs -/

/-- An optional JSON string field that is absent or whitespace-only. -/
def blankOpt (o : Option String) : Bool :=
  goTrimSpace (o.getD "") == ""

/-- Segments retained by `filepath.Clean`: neither empty nor `.`. -/
def keepSeg (s : List Char) : Bool :=
  !(s == [] || s == ['.'])

/-- A plain path segment: nonempty, not a dot segment, slash-free. -/
def plainSeg (s : List Char) : Prop :=
  s ≠ [] ∧ s ≠ ['.'] ∧ s ≠ ['.', '.'] ∧ '/' ∉ s

/-- Stack invariant of relative cleaning: once a `..` appears in the
reversed stack, everything below it (towards the bottom) is also `..`. -/
def dotdownClosed : List (List Char) → Prop
  | [] => True
  | x :: xs => (x = ['.', '.'] → ∀ y ∈ xs, y = ['.', '.']) ∧ dotdownClosed xs

/-! ## Shared lemmas -/

lemma dropWhile_eq_self_of_head (p : Char → Bool) (l : List Char)
    (h : ∀ c, l.head? = some c → p c = false) : l.dropWhile p = l := by
  cases l with
  | nil => rfl
  | cons c t =>
    have hc : p c = false := h c rfl
    simp [List.dropWhile_cons, hc]

lemma goTrimSpaceL_eq_self (l : List Char)
    (h1 : ∀ c, l.head? = some c → goIsSpace c = false)
    (h2 : ∀ c, l.getLast? = some c → goIsSpace c = false) :
    goTrimSpaceL l = l := by
  unfold goTrimSpaceL
  rw [dropWhile_eq_self_of_head _ _ h1]
  rw [dropWhile_eq_self_of_head _ _ (by
    intro c hc
    exact h2 c (by rwa [List.getLast?_eq_head?_reverse]))]
  exact l.reverse_reverse

lemma validation_marker (rest : String)
    (h1 : rest.toList ≠ [])
    (h2 : ∀ c, rest.toList.getLast? = some c → goIsSpace c = false) :
    isToolInputValidationError ("invalid " ++ rest) = true := by
  unfold isToolInputValidationError
  have hdata : ("invalid " ++ rest).toList = "invalid ".toList ++ rest.toList := rfl
  rw [hdata]
  rw [goTrimSpaceL_eq_self _ (by intro c hc; simp at hc; subst hc; rfl)
    (by
      intro c hc
      rw [List.getLast?_append_of_ne_nil _ h1] at hc
      exact h2 c hc)]
  unfold goToLowerL
  rw [List.map_append]
  have hlow : "invalid ".toList.map asciiToLower = "invalid ".toList := by decide
  rw [hlow]
  simp [List.isPrefixOf_iff_prefix]

/-! ## Claim C4 -/

/-- Claim C4, counterexample to the claim as stated: `timeout_seconds = 5`
and `max_output_bytes = 7` are passed through unchanged, below the
respective defaults, so the resolved values are not clamped into
`[default, hardCap]`. -/
theorem bash_clamp_counterexample :
    bashTimeoutSeconds 5 = 5 ∧ ¬ (defaultBashTimeoutSeconds ≤ bashTimeoutSeconds 5) ∧
    bashMaxOutputBytes 7 = 7 ∧ ¬ (defaultBashMaxOutputBytes ≤ bashMaxOutputBytes 7) := by
  refine ⟨rfl, ?_, rfl, ?_⟩ <;> decide

/-- Claim C4 (amended): the `timeout_seconds` of the bash tool and
`max_output_bytes` are resolved totally, never rejected: a value ≤ 0 falls
back to the default (30 s / 32000 bytes), a positive value up to the hard
cap (120 s / 256000 bytes) is used unchanged, a value above the hard cap
is clamped down to it; the result always lies in `[1, hardCap]`. -/
theorem bash_clamp_claim : ∀ requested : Int,
    (requested ≤ 0 → bashTimeoutSeconds requested = defaultBashTimeoutSeconds) ∧
    (0 < requested → requested ≤ hardBashTimeoutSeconds →
      bashTimeoutSeconds requested = requested) ∧
    (hardBashTimeoutSeconds < requested →
      bashTimeoutSeconds requested = hardBashTimeoutSeconds) ∧
    (1 ≤ bashTimeoutSeconds requested ∧
      bashTimeoutSeconds requested ≤ hardBashTimeoutSeconds) ∧
    (requested ≤ 0 → bashMaxOutputBytes requested = defaultBashMaxOutputBytes) ∧
    (0 < requested → requested ≤ hardBashMaxOutputBytes →
      bashMaxOutputBytes requested = requested) ∧
    (hardBashMaxOutputBytes < requested →
      bashMaxOutputBytes requested = hardBashMaxOutputBytes) ∧
    (1 ≤ bashMaxOutputBytes requested ∧
      bashMaxOutputBytes requested ≤ hardBashMaxOutputBytes) := by
  intro r
  simp only [bashTimeoutSeconds, bashMaxOutputBytes, defaultBashTimeoutSeconds,
    hardBashTimeoutSeconds, defaultBashMaxOutputBytes, hardBashMaxOutputBytes]
  refine ⟨?_, ?_, ?_, ?_, ?_, ?_, ?_, ?_⟩ <;> intros <;> split_ifs <;> omega

/-- Claim C4, witness: the amended behavior at concrete inputs. -/
theorem bash_clamp_claim_witness :
    bashTimeoutSeconds (-3) = defaultBashTimeoutSeconds ∧
    bashTimeoutSeconds 500 = hardBashTimeoutSeconds ∧
    bashMaxOutputBytes 999999 = hardBashMaxOutputBytes :=
  ⟨(bash_clamp_claim (-3)).1 (by decide),
   (bash_clamp_claim 500).2.2.1 (by decide),
   (bash_clamp_claim 999999).2.2.2.2.2.2.1 (by decide)⟩

/-! ## Claim C8 -/

lemma truncateOutput_nil (mb : Int) : truncateOutput [] mb = ("", false) := by
  simp only [truncateOutput, defaultBashMaxOutputBytes, List.length_nil, Nat.cast_zero]
  split_ifs <;> first | rfl | omega

/-- Claim C8: the bash tool returns an error result exactly when the
subprocess could not be executed at all; a timeout and a nonzero exit both
produce successful result text, and a successful command with empty
captured output yields the fixed no-output sentinel. -/
theorem bash_error_class_claim :
    (∀ (msg : String) (output : List Char) (ts mb : Int),
      bashToolResult (.startFailure msg) output ts mb =
        .error ("failed to execute command: " ++ msg)) ∧
    (∀ (output : List Char) (ts mb : Int),
      exceptIsOk (bashToolResult .timedOut output ts mb) = true) ∧
    (∀ (code : Int) (output : List Char) (ts mb : Int),
      exceptIsOk (bashToolResult (.exited code) output ts mb) = true) ∧
    (∀ ts mb : Int, bashToolResult (.exited 0) [] ts mb = .ok noOutputSentinel) := by
  refine ⟨fun msg out ts mb => rfl, fun out ts mb => rfl, ?_, ?_⟩
  · intro code out ts mb
    simp only [bashToolResult]
    split_ifs <;> rfl
  · intro ts mb
    have h0 : goTrimSpace "" = "" := rfl
    simp [bashToolResult, truncateOutput_nil, h0]

/-! ## Claim C10 -/

/-- Claim C10, counterexample: with `command` absent and `cmd` holding the
non-empty string `" "`, the bash tool still reports the missing-command
validation error instead of executing the `cmd` value. -/
theorem bash_cmd_alias_counterexample :
    bashResolveCommand none (some " ") =
      .error ("invalid " ++ "bash input: missing required field \"command\". " ++
              "expected input like " ++ bashExpectedInput) ∧
    (" " : String) ≠ "" := ⟨rfl, by decide⟩

/-- Claim C10 (amended): `cmd` is an undocumented alias of `command`:
whenever `command` is absent or whitespace-only and `cmd` holds a string
with non-whitespace content, the trimmed `cmd` value is the command that
runs; when `command` has non-whitespace content it always wins; the
missing-command validation error occurs exactly when both fields are
absent or whitespace-only. -/
theorem bash_cmd_alias_claim : ∀ command cmd : Option String,
    (blankOpt command = true → blankOpt cmd = false →
      bashResolveCommand command cmd = .ok (goTrimSpace (cmd.getD ""))) ∧
    (blankOpt command = false →
      bashResolveCommand command cmd = .ok (goTrimSpace (command.getD ""))) ∧
    (exceptIsOk (bashResolveCommand command cmd) = false ↔
      (blankOpt command = true ∧ blankOpt cmd = true)) := by
  intro command cmd
  have hempty : goTrimSpace "" = "" := rfl
  cases command with
  | none =>
    cases cmd with
    | none =>
      refine ⟨fun _ h2 => absurd h2 (by simp [blankOpt, hempty]), fun h1 => ?_, ?_⟩
      · exact absurd h1 (by simp [blankOpt, hempty])
      · constructor
        · intro _
          exact ⟨by simp [blankOpt, hempty], by simp [blankOpt, hempty]⟩
        · intro _
          rfl
    | some s =>
      by_cases hs : goTrimSpace s = ""
      · refine ⟨fun _ h2 => absurd h2 (by simp [blankOpt, hs]), fun h1 => ?_, ?_⟩
        · exact absurd h1 (by simp [blankOpt, hempty])
        · constructor
          · intro _
            exact ⟨by simp [blankOpt, hempty], by simp [blankOpt, hs]⟩
          · intro _
            simp [bashResolveCommand, hempty, hs, exceptIsOk]
      · refine ⟨fun _ _ => ?_, fun h1 => absurd h1 (by simp [blankOpt, hempty]), ?_⟩
        · simp [bashResolveCommand, hempty, hs, Option.getD]
        · constructor
          · intro hh
            exfalso
            revert hh
            simp [bashResolveCommand, hempty, hs, exceptIsOk]
          · rintro ⟨_, h2⟩
            exact absurd h2 (by simp [blankOpt, hs])
  | some s0 =>
    by_cases h0 : goTrimSpace s0 = ""
    · cases cmd with
      | none =>
        refine ⟨fun _ h2 => absurd h2 (by simp [blankOpt, hempty]), fun h1 => ?_, ?_⟩
        · exact absurd h1 (by simp [blankOpt, h0])
        · constructor
          · intro _
            exact ⟨by simp [blankOpt, h0], by simp [blankOpt, hempty]⟩
          · intro _
            simp [bashResolveCommand, h0, exceptIsOk]
      | some s =>
        by_cases hs : goTrimSpace s = ""
        · refine ⟨fun _ h2 => absurd h2 (by simp [blankOpt, hs]), fun h1 => ?_, ?_⟩
          · exact absurd h1 (by simp [blankOpt, h0])
          · constructor
            · intro _
              exact ⟨by simp [blankOpt, h0], by simp [blankOpt, hs]⟩
            · intro _
              simp [bashResolveCommand, h0, hs, exceptIsOk]
        · refine ⟨fun _ _ => ?_, fun h1 => absurd h1 (by simp [blankOpt, h0]), ?_⟩
          · simp [bashResolveCommand, h0, hs, Option.getD]
          · constructor
            · intro hh
              exfalso
              revert hh
              simp [bashResolveCommand, h0, hs, exceptIsOk]
            · rintro ⟨_, h2⟩
              exact absurd h2 (by simp [blankOpt, hs])
    · refine ⟨fun h1 _ => absurd h1 (by simp [blankOpt, h0]), fun _ => ?_, ?_⟩
      · simp [bashResolveCommand, h0, Option.getD]
      · constructor
        · intro hh
          exfalso
          revert hh
          simp [bashResolveCommand, h0, exceptIsOk]
        · rintro ⟨h1, _⟩
          exact absurd h1 (by simp [blankOpt, h0])

/-- Claim C10, witness: a whitespace-only `command` with `cmd = "ls"`
executes `ls`. -/
theorem bash_cmd_alias_claim_witness :
    bashResolveCommand (some "  ") (some "ls") = .ok (goTrimSpace ((some "ls").getD "")) :=
  (bash_cmd_alias_claim (some "  ") (some "ls")).1 (by decide) (by decide)

/-! ## Claim C3 -/

lemma validation_marker2 (mid tailS : String)
    (hne : tailS.toList ≠ [])
    (hlast : ∀ c, tailS.toList.getLast? = some c → goIsSpace c = false) :
    isToolInputValidationError ("invalid " ++ (mid ++ tailS)) = true := by
  apply validation_marker
  · show (mid.toList ++ tailS.toList) ≠ []
    intro h
    rw [List.append_eq_nil] at h
    exact hne h.2
  · intro c hc
    have hsplit : (mid ++ tailS).toList = mid.toList ++ tailS.toList := rfl
    rw [hsplit, List.getLast?_append_of_ne_nil _ hne] at hc
    exact hlast c hc

/-- Claim C3: `write_file` on an existing file without `overwrite=true`
fails with a validation-class error and leaves the content unchanged; with
`overwrite=true` it fully replaces the content; a directory target is
always refused. -/
theorem write_file_overwrite_claim :
    ∀ (displayPath existing content : String),
    (writeFileApply displayPath (.file existing) content false =
        (.error (writeFileExistsMessage displayPath), .file existing) ∧
      isToolInputValidationError (writeFileExistsMessage displayPath) = true) ∧
    (writeFileApply displayPath (.file existing) content true =
        (.ok ("wrote file " ++ displayPath), .file content)) ∧
    (∀ overwrite : Bool,
      writeFileApply displayPath .dir content overwrite =
        (.error ("path is a directory: " ++ displayPath), .dir)) := by
  intro dp existing content
  refine ⟨⟨rfl, ?_⟩, rfl, fun _ => rfl⟩
  unfold writeFileExistsMessage
  refine validation_marker2 _ _ (by decide) ?_
  intro c hc
  have h7 : writeFileExpectedInput.toList.getLast? = some '\x7d' := by decide
  rw [h7] at hc
  obtain rfl : c = '\x7d' := by simpa using hc.symm
  decide

/-! ## Claim C9 -/

/-- Claim C9: `edit_file` with empty `old_str` creates an absent file with
`new_str` as its entire content (a "created file" result) and appends
`new_str` to an existing file (an "edited file" result); `old_str =
new_str` is rejected with a validation error without touching the entry
(this rejection takes precedence, so the create/append clauses carry
`new_str ≠ ""`). -/
theorem edit_file_empty_oldstr_claim :
    ∀ (displayPath newStr content oldStr : String),
    (newStr ≠ "" →
      editFilesApply displayPath .absent "" newStr =
        (.ok ("created file " ++ displayPath), .file newStr)) ∧
    (newStr ≠ "" →
      editFilesApply displayPath (.file content) "" newStr =
        (.ok ("edited file " ++ displayPath), .file (content ++ newStr))) ∧
    (∀ entry : FsEntry,
      editFilesApply displayPath entry oldStr oldStr = (.error editFilesNoOpMessage, entry)) ∧
    isToolInputValidationError editFilesNoOpMessage = true := by
  intro dp new content old
  refine ⟨?_, ?_, fun entry => by simp [editFilesApply], by decide⟩
  · intro hne
    simp [editFilesApply, Ne.symm hne]
  · intro hne
    simp [editFilesApply, Ne.symm hne]

/-- Claim C9, witness: create, append, and no-op rejection at concrete
inputs. -/
theorem edit_file_empty_oldstr_claim_witness :
    editFilesApply "notes.txt" .absent "" "hello" =
      (.ok ("created file " ++ "notes.txt"), .file "hello") ∧
    editFilesApply "notes.txt" (.file "abc") "" "Z" =
      (.ok ("edited file " ++ "notes.txt"), .file ("abc" ++ "Z")) ∧
    editFilesApply "notes.txt" (.file "abc") "x" "x" =
      (.error editFilesNoOpMessage, .file "abc") :=
  ⟨(edit_file_empty_oldstr_claim "notes.txt" "hello" "abc" "x").1 (by decide),
   (edit_file_empty_oldstr_claim "notes.txt" "Z" "abc" "x").2.1 (by decide),
   (edit_file_empty_oldstr_claim "notes.txt" "hello" "abc" "x").2.2.1 (.file "abc")⟩

/-! ## Claim C5 -/

/-- Claim C5, counterexample: with `max_output_bytes = 2` and captured
output `"a\nb"`, the successful result text carries only `"a"` (the
truncated output is additionally trimmed), not exactly 2 bytes; and a
captured output of three newlines is truncated to whitespace, trimmed to
empty, and silently reported with the no-output sentinel, without any
truncation notice. -/
theorem bash_truncation_counterexample :
    bashToolResult (.exited 0) ['a', '\n', 'b'] 30 2 = .ok ("a" ++ truncationNotice 2) ∧
    ("a" ++ truncationNotice 2 : String) ≠
      String.mk (['a', '\n', 'b'].take 2) ++ truncationNotice 2 ∧
    bashToolResult (.exited 0) ['\n', '\n', '\n'] 30 2 = .ok noOutputSentinel := by
  refine ⟨by decide, by decide, by decide⟩

lemma truncateOutput_of_long (output : List Char) (mb : Int) (h1 : 1 ≤ mb)
    (h2 : mb < (output.length : Int)) :
    truncateOutput output mb = (String.mk (output.take mb.toNat), true) := by
  simp only [truncateOutput]
  rw [if_neg (by omega : ¬ mb < 1), if_neg (by omega : ¬ ((output.length : Int) ≤ mb))]

/-- Claim C5 (amended): when the captured output exceeds
`max_output_bytes`, the result text carries the first `max_output_bytes`
bytes of output with surrounding whitespace trimmed, followed by a
truncation notice naming `max_output_bytes`; in the timeout and
nonzero-exit paths the notice is always appended, while in the success
path an output whose truncated form trims to empty is reported with the
no-output sentinel instead (the one silent case). -/
theorem bash_truncation_claim :
    ∀ (output : List Char) (ts mb : Int), 1 ≤ mb → mb < (output.length : Int) →
    (goTrimSpace (String.mk (output.take mb.toNat)) ≠ "" →
      bashToolResult (.exited 0) output ts mb =
        .ok (goTrimSpace (String.mk (output.take mb.toNat)) ++ truncationNotice mb)) ∧
    (goTrimSpace (String.mk (output.take mb.toNat)) = "" →
      bashToolResult (.exited 0) output ts mb = .ok noOutputSentinel) ∧
    (∀ code : Int, code ≠ 0 →
      ∃ pre, bashToolResult (.exited code) output ts mb = .ok (pre ++ truncationNotice mb)) ∧
    (∃ pre, bashToolResult .timedOut output ts mb = .ok (pre ++ truncationNotice mb)) := by
  intro output ts mb h1 h2
  have htr := truncateOutput_of_long output mb h1 h2
  refine ⟨?_, ?_, ?_, ?_⟩
  · intro hne
    simp only [bashToolResult, htr]
    rw [if_neg (show ¬ ((0 : Int) ≠ 0) by simp), if_neg hne, if_pos trivial]
  · intro heq
    simp only [bashToolResult, htr]
    rw [if_neg (show ¬ ((0 : Int) ≠ 0) by simp), if_pos heq]
  · intro code hcode
    refine ⟨"Command exited with code " ++ toString code ++ "." ++
      (if goTrimSpace (String.mk (output.take mb.toNat)) ≠ "" then
        "\n\nOutput:\n" ++ goTrimSpace (String.mk (output.take mb.toNat)) else ""), ?_⟩
    simp only [bashToolResult, htr]
    rw [if_pos hcode, if_pos trivial]
  · refine ⟨"Command timed out after " ++ toString ts ++ " seconds." ++
      (if goTrimSpace (String.mk (output.take mb.toNat)) ≠ "" then
        "\n\nPartial output:\n" ++ goTrimSpace (String.mk (output.take mb.toNat)) else ""), ?_⟩
    simp only [bashToolResult, htr]
    rw [if_pos trivial]

/-- Claim C5, witness: the amended behavior at `max_output_bytes = 2` on
output `"a\nb"`. -/
theorem bash_truncation_claim_witness :
    bashToolResult (.exited 0) ['a', '\n', 'b'] 30 2 =
      .ok (goTrimSpace (String.mk (['a', '\n', 'b'].take (2 : Int).toNat)) ++
           truncationNotice 2) :=
  (bash_truncation_claim ['a', '\n', 'b'] 30 2 (by decide) (by decide)).1 (by decide)

/-! ## Claims C6 and C7 -/

lemma runTurnAux_nil (call : Nat) (sig : String) (rc : Nat) :
    runTurnAux call sig rc [] =
      if call ≥ maxToolRoundsPerTurn then (call, .stopped maxRoundsStopMessage)
      else (call, .outOfScript) := rfl

lemma runTurnAux_cons_failure (call : Nat) (sig : String) (rc : Nat)
    (rest : List ModelResponse) :
    runTurnAux call sig rc (.failure :: rest) =
      if call ≥ maxToolRoundsPerTurn then (call, .stopped maxRoundsStopMessage)
      else (call + 1, .apiError) := rfl

lemma runTurnAux_cons_message (call : Nat) (sig : String) (rc : Nat)
    (toolCalls : List ToolCall) (rest : List ModelResponse) :
    runTurnAux call sig rc (.message toolCalls :: rest) =
      if call ≥ maxToolRoundsPerTurn then (call, .stopped maxRoundsStopMessage)
      else if toolCalls.isEmpty then (call + 1, .modelFinished)
      else if toolCalls.all (fun tc => tc.isFailure) then
        if (if failureSignature toolCalls = sig then rc + 1 else 1) ≥
            maxRepeatedToolFailures then
          (call + 1, .stopped repeatedFailuresStopMessage)
        else
          runTurnAux (call + 1) (failureSignature toolCalls)
            (if failureSignature toolCalls = sig then rc + 1 else 1) rest
      else runTurnAux (call + 1) "" 0 rest := rfl

lemma runTurnAux_le (resps : List ModelResponse) :
    ∀ (call : Nat) (sig : String) (rc : Nat), call ≤ maxToolRoundsPerTurn →
      (runTurnAux call sig rc resps).1 ≤ maxToolRoundsPerTurn := by
  induction resps with
  | nil =>
    intro call sig rc h
    rw [runTurnAux_nil]
    split_ifs <;> simpa using h
  | cons r rest ih =>
    intro call sig rc h
    by_cases h1 : call ≥ maxToolRoundsPerTurn
    · cases r <;> simp [runTurnAux_cons_failure, runTurnAux_cons_message, if_pos h1] <;>
        exact h
    · have h2 : call + 1 ≤ maxToolRoundsPerTurn := by omega
      cases r with
      | failure => simp [runTurnAux_cons_failure, if_neg h1]; omega
      | message calls =>
        rw [runTurnAux_cons_message, if_neg h1]
        by_cases he : calls.isEmpty
        · rw [if_pos he]
          simpa using h2
        · rw [if_neg he]
          by_cases hf : calls.all (fun tc => tc.isFailure)
          · rw [if_pos hf]
            by_cases hstop :
                (if failureSignature calls = sig then rc + 1 else 1) ≥ maxRepeatedToolFailures
            · rw [if_pos hstop]
              simpa using h2
            · rw [if_neg hstop]
              exact ih _ _ _ h2
          · rw [if_neg hf]
            exact ih _ _ _ h2

lemma runTurnAux_reach (resps : List ModelResponse) :
    ∀ (call : Nat) (sig : String) (rc : Nat),
      (∀ r ∈ resps, isSuccessfulToolRound r = true) →
      call ≤ maxToolRoundsPerTurn →
      maxToolRoundsPerTurn ≤ call + resps.length →
      runTurnAux call sig rc resps = (maxToolRoundsPerTurn, .stopped maxRoundsStopMessage) := by
  induction resps with
  | nil =>
    intro call sig rc _ hle hge
    simp only [List.length_nil, Nat.add_zero] at hge
    have hc : call = maxToolRoundsPerTurn := le_antisymm hle hge
    subst hc
    rw [runTurnAux_nil, if_pos (le_refl _)]
  | cons r rest ih =>
    intro call sig rc hall hle hge
    by_cases h1 : call ≥ maxToolRoundsPerTurn
    · have hc : call = maxToolRoundsPerTurn := le_antisymm hle h1
      subst hc
      cases r <;>
        simp [runTurnAux_cons_failure, runTurnAux_cons_message, if_pos h1]
    · have hr := hall r (List.mem_cons_self r rest)
      cases r with
      | failure => simp [isSuccessfulToolRound] at hr
      | message calls =>
        simp only [isSuccessfulToolRound, Bool.and_eq_true, Bool.not_eq_true'] at hr
        obtain ⟨hne, hnf⟩ := hr
        rw [runTurnAux_cons_message, if_neg h1, if_neg (by simp [hne]),
          if_neg (by simp [hnf])]
        refine ih (call + 1) "" 0 (fun x hx => hall x (List.mem_cons_of_mem _ hx))
          (by omega) ?_
        simp only [List.length_cons] at hge
        omega

/-- Claim C7: every turn performs at most `maxToolRoundsPerTurn` (16)
model-round-trip/dispatch rounds, and when that many rounds of succeeding
tool calls have run, the turn stops with the fixed round-cap message
before making another model call. -/
theorem tool_round_cap_claim :
    (∀ resps : List ModelResponse, (runTurn resps).1 ≤ maxToolRoundsPerTurn) ∧
    (∀ resps : List ModelResponse,
      (∀ r ∈ resps, isSuccessfulToolRound r = true) →
      maxToolRoundsPerTurn ≤ resps.length →
      runTurn resps = (maxToolRoundsPerTurn, .stopped maxRoundsStopMessage)) := by
  constructor
  · intro resps
    exact runTurnAux_le resps 0 "" 0 (Nat.zero_le _)
  · intro resps hall hlen
    exact runTurnAux_reach resps 0 "" 0 hall (Nat.zero_le _) (by simpa using hlen)

/-- Claim C7, witness: a script of 16 successful tool rounds is stopped
exactly at the cap. -/
theorem tool_round_cap_claim_witness :
    runTurn (List.replicate 16 (ModelResponse.message [⟨"bash", "x", false⟩])) =
      (maxToolRoundsPerTurn, .stopped maxRoundsStopMessage) :=
  tool_round_cap_claim.2 _ (by decide) (by decide)

/-- Claim C6: within a turn, an all-failed round whose failure signature
matches that of the previous round increments the repeat counter, and reaching
`maxRepeatedToolFailures` (2) stops the turn with the fixed message and no
further dispatch; an all-failed round with a differing signature resets
the counter to one, and a round with at least one success resets it to
zero; in particular two consecutive identical all-failed rounds from a
fresh turn stop after the second round. -/
theorem repeated_failure_cap_claim :
    (∀ (call : Nat) (sig : String) (rc : Nat) (calls : List ToolCall)
        (rest : List ModelResponse),
      call < maxToolRoundsPerTurn → calls ≠ [] →
      calls.all (fun tc => tc.isFailure) = true →
      failureSignature calls = sig →
      maxRepeatedToolFailures ≤ rc + 1 →
      runTurnAux call sig rc (.message calls :: rest) =
        (call + 1, .stopped repeatedFailuresStopMessage)) ∧
    (∀ (call : Nat) (sig : String) (rc : Nat) (calls : List ToolCall)
        (rest : List ModelResponse),
      call < maxToolRoundsPerTurn → calls ≠ [] →
      calls.all (fun tc => tc.isFailure) = true →
      failureSignature calls = sig →
      rc + 1 < maxRepeatedToolFailures →
      runTurnAux call sig rc (.message calls :: rest) =
        runTurnAux (call + 1) sig (rc + 1) rest) ∧
    (∀ (call : Nat) (sig : String) (rc : Nat) (calls : List ToolCall)
        (rest : List ModelResponse),
      call < maxToolRoundsPerTurn → calls ≠ [] →
      calls.all (fun tc => tc.isFailure) = true →
      failureSignature calls ≠ sig →
      runTurnAux call sig rc (.message calls :: rest) =
        runTurnAux (call + 1) (failureSignature calls) 1 rest) ∧
    (∀ (call : Nat) (sig : String) (rc : Nat) (calls : List ToolCall)
        (rest : List ModelResponse),
      call < maxToolRoundsPerTurn → calls ≠ [] →
      calls.all (fun tc => tc.isFailure) = false →
      runTurnAux call sig rc (.message calls :: rest) = runTurnAux (call + 1) "" 0 rest) ∧
    (∀ (calls : List ToolCall) (rest : List ModelResponse),
      calls ≠ [] → calls.all (fun tc => tc.isFailure) = true →
      runTurn (.message calls :: .message calls :: rest) =
        (2, .stopped repeatedFailuresStopMessage)) := by
  refine ⟨?_, ?_, ?_, ?_, ?_⟩
  · intro call sig rc calls rest hlt hne hf hsig hcap
    rw [runTurnAux_cons_message, if_neg (by omega), if_neg (by simp [hne]), if_pos hf,
      if_pos (by rw [if_pos hsig]; exact hcap)]
  · intro call sig rc calls rest hlt hne hf hsig hlt2
    rw [runTurnAux_cons_message, if_neg (by omega), if_neg (by simp [hne]), if_pos hf,
      if_neg (by rw [if_pos hsig]; omega), if_pos hsig, hsig]
  · intro call sig rc calls rest hlt hne hf hsig
    rw [runTurnAux_cons_message, if_neg (by omega), if_neg (by simp [hne]), if_pos hf,
      if_neg (by rw [if_neg hsig]; decide), if_neg hsig]
  · intro call sig rc calls rest hlt hne hf
    rw [runTurnAux_cons_message, if_neg (by omega), if_neg (by simp [hne]), if_neg (by simp [hf])]
  · intro calls rest hne hf
    unfold runTurn
    rw [runTurnAux_cons_message, if_neg (by decide), if_neg (by simp [hne]), if_pos hf]
    have hrepeat : (if failureSignature calls = "" then 0 + 1 else 1) = 1 := by
      split_ifs <;> rfl
    rw [hrepeat, if_neg (by decide)]
    rw [runTurnAux_cons_message, if_neg (by decide), if_neg (by simp [hne]), if_pos hf,
      if_pos (by rw [if_pos rfl]; decide)]

/-- Claim C6, witness: two identical all-failed `bash` rounds from a fresh
turn stop after the second round, with no third dispatch. -/
theorem repeated_failure_cap_claim_witness :
    runTurn [ModelResponse.message [⟨"bash", "x", true⟩],
             ModelResponse.message [⟨"bash", "x", true⟩]] =
      (2, .stopped repeatedFailuresStopMessage) :=
  repeated_failure_cap_claim.2.2.2.2 [⟨"bash", "x", true⟩] [] (by decide) (by decide)

/-! ## Claim C2 -/

lemma countAux_one (s : List Char) : ∀ (sub new : List Char), sub ≠ [] →
    countAux s sub = 1 →
    ∃ pre post, s = pre ++ sub ++ post ∧
      replaceFirstAux sub new s = pre ++ new ++ post ∧
      (∀ k, k < pre.length → ¬ (sub <+: s.drop k)) := by
  induction s with
  | nil =>
    intro sub new hsub h
    simp [countAux] at h
  | cons c rest ih =>
    intro sub new hsub h
    rw [countAux] at h
    by_cases hp : sub.isPrefixOf (c :: rest) = true
    · rw [if_pos ⟨hsub, hp⟩] at h
      obtain ⟨t, ht⟩ := List.isPrefixOf_iff_prefix.mp hp
      refine ⟨[], (c :: rest).drop sub.length, ?_, ?_, ?_⟩
      · rw [← ht]
        simp [List.drop_left]
      · rw [replaceFirstAux, if_pos hp]
        simp
      · intro k hk
        simp at hk
    · rw [if_neg (fun hcon => hp hcon.2)] at h
      obtain ⟨pre, post, hs, hr, hleft⟩ := ih sub new hsub h
      refine ⟨c :: pre, post, by rw [hs]; simp, ?_, ?_⟩
      · rw [replaceFirstAux, if_neg hp, hr]
        simp
      · intro k hk
        cases k with
        | zero =>
          intro hcon
          simp only [List.drop_zero] at hcon
          exact hp (List.isPrefixOf_iff_prefix.mpr hcon)
        | succ k2 =>
          have hk2 : k2 < pre.length := by simpa using hk
          have := hleft k2 hk2
          simpa using this

/-- Claim C2, counterexample to the claim as stated: with `old_str = "a"`
occurring exactly once in file `"a"` but equal to `new_str`, the edit is
rejected instead of succeeding; and with file `"aaa"`, `old_str = "aa"`
occurs at two positions (more than once) yet the edit succeeds, because
the source counts occurrences non-overlappingly (`strings.Count`). -/
theorem edit_file_unique_replace_counterexample :
    (goCount "a".toList "a".toList = 1 ∧
      exceptIsOk (editFilesApply "f" (.file "a") "a" "a").1 = false) ∧
    (occurrenceCount "aaa".toList "aa".toList = 2 ∧
      (editFilesApply "f" (.file "aaa") "aa" "b").1 = .ok ("edited file " ++ "f")) := by
  refine ⟨⟨?_, by decide⟩, ⟨by decide, ?_⟩⟩
  · simp [goCount, countAux]
  · simp [editFilesApply, goCount, countAux, goReplace1, replaceFirstAux]

/-- Claim C2 (amended): for a non-empty `old_str` different from
`new_str`, with occurrences counted non-overlappingly from the left (Go
`strings.Count`): a count of exactly one makes `edit_file` succeed,
replacing the leftmost occurrence and leaving every other byte unchanged;
a count of zero or more than one fails with an error and leaves the file
content unchanged. -/
theorem edit_file_unique_replace_claim :
    ∀ (displayPath content oldStr newStr : String),
      oldStr ≠ "" → oldStr ≠ newStr →
      (goCount content.toList oldStr.toList = 1 →
        editFilesApply displayPath (.file content) oldStr newStr =
          (.ok ("edited file " ++ displayPath),
           .file (String.mk (goReplace1 content.toList oldStr.toList newStr.toList))) ∧
        ∃ pre post, content.toList = pre ++ oldStr.toList ++ post ∧
          goReplace1 content.toList oldStr.toList newStr.toList =
            pre ++ newStr.toList ++ post ∧
          (∀ k, k < pre.length → ¬ (oldStr.toList <+: content.toList.drop k))) ∧
      (goCount content.toList oldStr.toList = 0 →
        editFilesApply displayPath (.file content) oldStr newStr =
          (.error ("old_str not found in file: " ++ displayPath), .file content)) ∧
      (1 < goCount content.toList oldStr.toList →
        editFilesApply displayPath (.file content) oldStr newStr =
          (.error ("old_str appears multiple times in file: " ++ displayPath ++
                   "; provide more specific text"), .file content)) := by
  intro dp content old new hne hneq
  have holdL : old.toList ≠ [] := fun hc => hne (String.ext hc)
  refine ⟨?_, ?_, ?_⟩
  · intro hcount
    constructor
    · simp only [editFilesApply, if_neg hneq, if_neg hne, hcount]
      norm_num
    · have hc1 : countAux content.toList old.toList = 1 := by
        unfold goCount at hcount
        rwa [if_neg holdL] at hcount
      obtain ⟨pre, post, h1, h2, h3⟩ := countAux_one content.toList old.toList new.toList holdL hc1
      refine ⟨pre, post, h1, ?_, h3⟩
      rw [goReplace1, if_neg holdL]
      exact h2
  · intro hcount
    simp only [editFilesApply, if_neg hneq, if_neg hne, hcount]
    norm_num
  · intro hcount
    have h0 : ¬ (goCount content.toList old.toList = 0) := by omega
    simp only [editFilesApply, if_neg hneq, if_neg hne, if_neg h0, if_pos hcount]

/-- Claim C2, witness: replacing the unique occurrence of `"a"` in `"xay"`
by `"bb"`. -/
theorem edit_file_unique_replace_claim_witness :
    editFilesApply "f" (.file "xay") "a" "bb" =
      (.ok ("edited file " ++ "f"),
       .file (String.mk (goReplace1 "xay".toList "a".toList "bb".toList))) :=
  ((edit_file_unique_replace_claim "f" "xay" "a" "bb" (by decide) (by decide)).1
    (by simp [goCount, countAux])).1

/-! ## Claim C1: segment lemmas -/

lemma splitSlash_ne_nil (l : List Char) : splitSlash l ≠ [] := by
  induction l with
  | nil => simp [splitSlash]
  | cons c cs ih =>
    rw [splitSlash]
    split_ifs
    · simp
    · cases h : splitSlash cs <;> simp

lemma splitSlash_append (a b : List Char) :
    splitSlash (a ++ '/' :: b) = splitSlash a ++ splitSlash b := by
  induction a with
  | nil => simp [splitSlash]
  | cons c a' ih =>
    by_cases hc : c = '/'
    · subst hc
      rw [List.cons_append, splitSlash, if_pos rfl, ih, splitSlash, if_pos rfl,
        List.cons_append]
    · rw [List.cons_append, splitSlash, if_neg hc, ih]
      cases hS : splitSlash a' with
      | nil => exact absurd hS (splitSlash_ne_nil a')
      | cons h1 t1 =>
        rw [splitSlash, if_neg hc, hS]
        simp

lemma not_slash_mem_splitSlash (l : List Char) :
    ∀ s ∈ splitSlash l, '/' ∉ s := by
  induction l with
  | nil =>
    intro s hs
    simp [splitSlash] at hs
    simp [hs]
  | cons c cs ih =>
    intro s hs
    rw [splitSlash] at hs
    by_cases hc : c = '/'
    · rw [if_pos hc] at hs
      rcases List.mem_cons.mp hs with h | h
      · simp [h]
      · exact ih s h
    · rw [if_neg hc] at hs
      cases hS : splitSlash cs with
      | nil => exact absurd hS (splitSlash_ne_nil cs)
      | cons h1 t1 =>
        rw [hS] at hs
        rcases List.mem_cons.mp hs with h | h
        · subst h
          intro hmem
          rcases List.mem_cons.mp hmem with h2 | h2
          · exact hc h2.symm
          · exact ih h1 (hS ▸ List.mem_cons_self h1 t1) h2
        · exact ih s (hS ▸ List.mem_cons_of_mem h1 h)

lemma splitSlash_of_no_slash (s : List Char) (h : '/' ∉ s) : splitSlash s = [s] := by
  induction s with
  | nil => rfl
  | cons c cs ih =>
    have hc : c ≠ '/' := fun hcc => h (hcc ▸ List.mem_cons_self c cs)
    rw [splitSlash, if_neg hc, ih (fun hm => h (List.mem_cons_of_mem c hm))]

lemma intercalateSlash_singleton (s : List Char) : intercalateSlash [s] = s := by
  simp [intercalateSlash]

lemma intercalateSlash_cons₂ (s r : List Char) (rest : List (List Char)) :
    intercalateSlash (s :: r :: rest) = s ++ '/' :: intercalateSlash (r :: rest) := rfl

lemma splitSlash_intercalateSlash (S : List (List Char)) (h : ∀ s ∈ S, '/' ∉ s) :
    splitSlash (intercalateSlash S) = if S = [] then [[]] else S := by
  induction S with
  | nil => simp [intercalateSlash, splitSlash]
  | cons s rest ih =>
    cases rest with
    | nil =>
      rw [intercalateSlash_singleton, splitSlash_of_no_slash s (h s (List.mem_cons_self s []))]
      simp
    | cons r rest2 =>
      rw [intercalateSlash_cons₂, splitSlash_append,
        splitSlash_of_no_slash s (h s (List.mem_cons_self s _)),
        ih (fun x hx => h x (List.mem_cons_of_mem s hx))]
      simp

/-! ## Claim C1: cleanStack lemmas -/

lemma cleanStack_nil (rooted : Bool) (acc : List (List Char)) :
    cleanStack rooted acc [] = acc.reverse := rfl

lemma cleanStack_cons (rooted : Bool) (acc : List (List Char)) (s : List Char)
    (rest : List (List Char)) :
    cleanStack rooted acc (s :: rest) =
      if s = [] ∨ s = ['.'] then cleanStack rooted acc rest
      else if s = ['.', '.'] then
        match acc with
        | [] => if rooted then cleanStack rooted [] rest else cleanStack rooted [s] rest
        | t :: ts =>
          if t = ['.', '.'] then cleanStack rooted (s :: acc) rest
          else cleanStack rooted ts rest
      else cleanStack rooted (s :: acc) rest := rfl


lemma cleanStack_cons_drop (rooted : Bool) (acc : List (List Char)) (s : List Char)
    (rest : List (List Char)) (h : s = [] ∨ s = ['.']) :
    cleanStack rooted acc (s :: rest) = cleanStack rooted acc rest := by
  rw [cleanStack_cons, if_pos h]

lemma cleanStack_cons_push (rooted : Bool) (acc : List (List Char)) (s : List Char)
    (rest : List (List Char)) (h1 : ¬(s = [] ∨ s = ['.'])) (h2 : s ≠ ['.', '.']) :
    cleanStack rooted acc (s :: rest) = cleanStack rooted (s :: acc) rest := by
  rw [cleanStack_cons, if_neg h1, if_neg h2]

lemma cleanStack_cons_dotdot_nil (rooted : Bool) (rest : List (List Char)) :
    cleanStack rooted [] (['.', '.'] :: rest) =
      if rooted then cleanStack rooted [] rest else cleanStack rooted [['.', '.']] rest := by
  rw [cleanStack_cons, if_neg (by decide), if_pos rfl]

lemma cleanStack_cons_dotdot_cons (rooted : Bool) (t : List Char) (ts : List (List Char))
    (rest : List (List Char)) :
    cleanStack rooted (t :: ts) (['.', '.'] :: rest) =
      if t = ['.', '.'] then cleanStack rooted (['.', '.'] :: t :: ts) rest
      else cleanStack rooted ts rest := by
  rw [cleanStack_cons, if_neg (by decide), if_pos rfl]

lemma cleanStack_mem (rooted : Bool) :
    ∀ (segs acc : List (List Char)) (x : List Char),
      x ∈ cleanStack rooted acc segs → x ∈ acc ∨ x ∈ segs := by
  intro segs
  induction segs with
  | nil =>
    intro acc x hx
    rw [cleanStack_nil] at hx
    exact Or.inl (List.mem_reverse.mp hx)
  | cons s rest ih =>
    intro acc x hx
    by_cases h1 : s = [] ∨ s = ['.']
    · rw [cleanStack_cons_drop rooted acc s rest h1] at hx
      rcases ih acc x hx with h | h
      · exact Or.inl h
      · exact Or.inr (List.mem_cons_of_mem s h)
    · by_cases h2 : s = ['.', '.']
      · subst h2
        cases acc with
        | nil =>
          rw [cleanStack_cons_dotdot_nil] at hx
          split_ifs at hx
          · rcases ih [] x hx with h | h
            · simp at h
            · exact Or.inr (List.mem_cons_of_mem _ h)
          · rcases ih [['.', '.']] x hx with h | h
            · simp at h
              exact Or.inr (h ▸ List.mem_cons_self _ rest)
            · exact Or.inr (List.mem_cons_of_mem _ h)
        | cons t ts =>
          rw [cleanStack_cons_dotdot_cons] at hx
          split_ifs at hx
          · rcases ih (['.', '.'] :: t :: ts) x hx with h | h
            · rcases List.mem_cons.mp h with h3 | h3
              · exact Or.inr (h3 ▸ List.mem_cons_self _ rest)
              · exact Or.inl h3
            · exact Or.inr (List.mem_cons_of_mem _ h)
          · rcases ih ts x hx with h | h
            · exact Or.inl (List.mem_cons_of_mem t h)
            · exact Or.inr (List.mem_cons_of_mem _ h)
      · rw [cleanStack_cons_push rooted acc s rest h1 h2] at hx
        rcases ih (s :: acc) x hx with h | h
        · rcases List.mem_cons.mp h with h3 | h3
          · exact Or.inr (h3 ▸ List.mem_cons_self s rest)
          · exact Or.inl h3
        · exact Or.inr (List.mem_cons_of_mem s h)

lemma cleanStack_good (rooted : Bool) :
    ∀ (segs acc : List (List Char)),
      (∀ y ∈ acc, y ≠ [] ∧ y ≠ ['.']) →
      ∀ x ∈ cleanStack rooted acc segs, x ≠ [] ∧ x ≠ ['.'] := by
  intro segs
  induction segs with
  | nil =>
    intro acc hacc x hx
    rw [cleanStack_nil] at hx
    exact hacc x (List.mem_reverse.mp hx)
  | cons s rest ih =>
    intro acc hacc x hx
    by_cases h1 : s = [] ∨ s = ['.']
    · rw [cleanStack_cons_drop rooted acc s rest h1] at hx
      exact ih acc hacc x hx
    · by_cases h2 : s = ['.', '.']
      · subst h2
        cases acc with
        | nil =>
          rw [cleanStack_cons_dotdot_nil] at hx
          split_ifs at hx
          · exact ih [] hacc x hx
          · refine ih [['.', '.']] ?_ x hx
            intro y hy
            simp at hy
            subst hy
            exact ⟨by simp, by simp⟩
        | cons t ts =>
          rw [cleanStack_cons_dotdot_cons] at hx
          split_ifs at hx
          · refine ih (['.', '.'] :: t :: ts) ?_ x hx
            intro y hy
            rcases List.mem_cons.mp hy with h3 | h3
            · subst h3
              exact ⟨by simp, by simp⟩
            · exact hacc y h3
          · exact ih ts (fun y hy => hacc y (List.mem_cons_of_mem t hy)) x hx
      · rw [cleanStack_cons_push rooted acc s rest h1 h2] at hx
        refine ih (s :: acc) ?_ x hx
        intro y hy
        rcases List.mem_cons.mp hy with h3 | h3
        · subst h3
          push_neg at h1
          exact h1
        · exact hacc y h3

lemma cleanStack_rooted_no_dotdot :
    ∀ (segs acc : List (List Char)), ['.', '.'] ∉ acc →
      ['.', '.'] ∉ cleanStack true acc segs := by
  intro segs
  induction segs with
  | nil =>
    intro acc hacc
    rw [cleanStack_nil]
    simpa using hacc
  | cons s rest ih =>
    intro acc hacc
    by_cases h1 : s = [] ∨ s = ['.']
    · rw [cleanStack_cons_drop true acc s rest h1]
      exact ih acc hacc
    · by_cases h2 : s = ['.', '.']
      · subst h2
        cases acc with
        | nil =>
          rw [cleanStack_cons_dotdot_nil, if_pos rfl]
          exact ih [] hacc
        | cons t ts =>
          have ht : t ≠ ['.', '.'] := fun hc => hacc (hc ▸ List.mem_cons_self t ts)
          rw [cleanStack_cons_dotdot_cons, if_neg ht]
          exact ih ts (fun hc => hacc (List.mem_cons_of_mem t hc))
      · rw [cleanStack_cons_push true acc s rest h1 h2]
        refine ih (s :: acc) ?_
        intro hc
        rcases List.mem_cons.mp hc with h3 | h3
        · exact h2 h3.symm
        · exact hacc h3

lemma dotdown_getLast :
    ∀ acc : List (List Char), dotdownClosed acc → ['.', '.'] ∈ acc →
      acc.getLast? = some ['.', '.'] := by
  intro acc
  induction acc with
  | nil =>
    intro _ hmem
    simp at hmem
  | cons x xs ih =>
    intro hdc hmem
    obtain ⟨h1, h2⟩ := hdc
    cases xs with
    | nil =>
      simp at hmem
      simp [hmem]
    | cons y ys =>
      rw [List.getLast?_cons_cons]
      rcases List.mem_cons.mp hmem with h3 | h3
      · have hall := h1 h3.symm
        exact ih h2 (hall y (List.mem_cons_self y ys) ▸ List.mem_cons_self y ys)
      · exact ih h2 h3

lemma cleanStack_rel_dotdot_head :
    ∀ (segs acc : List (List Char)), dotdownClosed acc →
      ['.', '.'] ∈ cleanStack false acc segs →
      (cleanStack false acc segs).head? = some ['.', '.'] := by
  intro segs
  induction segs with
  | nil =>
    intro acc hdc hmem
    rw [cleanStack_nil] at hmem ⊢
    rw [List.head?_reverse]
    exact dotdown_getLast acc hdc (List.mem_reverse.mp hmem)
  | cons s rest ih =>
    intro acc hdc hmem
    by_cases h1 : s = [] ∨ s = ['.']
    · rw [cleanStack_cons_drop false acc s rest h1] at hmem ⊢
      exact ih acc hdc hmem
    · by_cases h2 : s = ['.', '.']
      · subst h2
        cases acc with
        | nil =>
          rw [cleanStack_cons_dotdot_nil, if_neg (by simp)] at hmem ⊢
          refine ih [['.', '.']] ⟨fun _ y hy => absurd hy (by simp), trivial⟩ hmem
        | cons t ts =>
          by_cases ht : t = ['.', '.']
          · rw [cleanStack_cons_dotdot_cons, if_pos ht] at hmem ⊢
            refine ih (['.', '.'] :: t :: ts) ?_ hmem
            refine ⟨fun _ => ?_, hdc⟩
            intro y hy
            rcases List.mem_cons.mp hy with h3 | h3
            · exact h3.trans ht
            · exact hdc.1 ht y h3
          · rw [cleanStack_cons_dotdot_cons, if_neg ht] at hmem ⊢
            exact ih ts hdc.2 hmem
      · rw [cleanStack_cons_push false acc s rest h1 h2] at hmem ⊢
        exact ih (s :: acc) ⟨fun hc => absurd hc h2, hdc⟩ hmem

lemma cleanStack_of_no_dotdot (rooted : Bool) :
    ∀ (segs acc : List (List Char)), (∀ s ∈ segs, s ≠ ['.', '.']) →
      cleanStack rooted acc segs = acc.reverse ++ segs.filter keepSeg := by
  intro segs
  induction segs with
  | nil =>
    intro acc _
    rw [cleanStack_nil]
    simp
  | cons s rest ih =>
    intro acc hnd
    by_cases h1 : s = [] ∨ s = ['.']
    · rw [cleanStack_cons_drop rooted acc s rest h1,
        ih acc (fun x hx => hnd x (List.mem_cons_of_mem s hx))]
      have hks : keepSeg s = false := by
        rcases h1 with h | h <;> simp [keepSeg, h]
      rw [List.filter_cons, hks]
      simp
    · have h2 : s ≠ ['.', '.'] := hnd s (List.mem_cons_self s rest)
      rw [cleanStack_cons_push rooted acc s rest h1 h2,
        ih (s :: acc) (fun x hx => hnd x (List.mem_cons_of_mem s hx))]
      have hks : keepSeg s = true := by
        push_neg at h1
        simp [keepSeg, h1.1, h1.2]
      rw [List.filter_cons, hks]
      simp

/-! ## Claim C1: cleanL and trimming lemmas -/

lemma dropWhile_append_slash :
    ∀ l : List Char, ∃ l2, (l ++ ['/']).dropWhile goIsSpace = l2 ++ ['/'] := by
  intro l
  induction l with
  | nil => exact ⟨[], rfl⟩
  | cons c t ih =>
    by_cases hc : goIsSpace c = true
    · rw [List.cons_append, List.dropWhile_cons_of_pos hc]
      exact ih
    · exact ⟨c :: t, by rw [List.cons_append, List.dropWhile_cons_of_neg (by simpa using hc)]⟩

lemma isAbsL_goTrimSpaceL (l : List Char) (h : isAbsL l = true) :
    isAbsL (goTrimSpaceL l) = true := by
  cases l with
  | nil => simp [isAbsL] at h
  | cons c t =>
    have hc : c = '/' := by simpa [isAbsL] using h
    subst hc
    unfold goTrimSpaceL
    rw [List.dropWhile_cons_of_neg (by decide), List.reverse_cons]
    obtain ⟨l2, hl2⟩ := dropWhile_append_slash t.reverse
    rw [hl2, List.reverse_append]
    simp [isAbsL]

lemma cleanL_rooted (p : List Char) (h : isAbsL p = true) :
    cleanL p = '/' :: intercalateSlash (cleanStack true [] (splitSlash p)) := by
  have hne : p ≠ [] := by
    intro hc
    rw [hc] at h
    simp [isAbsL] at h
  rw [cleanL, if_neg hne, if_pos h]

lemma escapesL_slash (X : List Char) : escapesL ('/' :: X) = false := by
  unfold escapesL
  have h1 : (('/' :: X) == ['.', '.']) = false := by
    rw [show (('/' :: X) == ['.', '.']) = (('/' == '.') && (X == ['.'])) from rfl]
    simp
  have h2 : (['.', '.', '/'].isPrefixOf ('/' :: X)) = false := by
    rw [show (['.', '.', '/'].isPrefixOf ('/' :: X)) =
      (('.' == '/') && ['.', '/'].isPrefixOf X) from rfl]
    simp
  rw [h1, h2]
  rfl

lemma intercalateSlash_plain_ne_nil (C : List (List Char)) (hne : C ≠ [])
    (hplain : ∀ s ∈ C, plainSeg s) : intercalateSlash C ≠ [] := by
  cases C with
  | nil => exact absurd rfl hne
  | cons s rest =>
    have hs := (hplain s (List.mem_cons_self s rest)).1
    cases rest with
    | nil =>
      rw [intercalateSlash_singleton]
      exact hs
    | cons r rest2 =>
      rw [intercalateSlash_cons₂]
      intro hc
      rw [List.append_eq_nil] at hc
      exact hs hc.1

lemma clean_rel_decomp (t : List Char) (h0 : t ≠ []) (h1 : isAbsL t = false)
    (h2 : cleanL t ≠ ['.']) (h3 : escapesL (cleanL t) = false) :
    ∃ C, C ≠ [] ∧ (∀ s ∈ C, plainSeg s) ∧
      cleanL t = intercalateSlash C ∧ C = cleanStack false [] (splitSlash t) := by
  have hform : cleanL t =
      (if cleanStack false [] (splitSlash t) = [] then ['.']
       else intercalateSlash (cleanStack false [] (splitSlash t))) := by
    rw [cleanL, if_neg h0, if_neg (by simp [h1])]
  by_cases hC : cleanStack false [] (splitSlash t) = []
  · rw [hform, if_pos hC] at h2
    exact absurd rfl h2
  · rw [if_neg hC] at hform
    refine ⟨cleanStack false [] (splitSlash t), hC, ?_, hform, rfl⟩
    intro s hs
    have hgood := cleanStack_good false (splitSlash t) [] (by simp) s hs
    have hslash : '/' ∉ s := by
      rcases cleanStack_mem false (splitSlash t) [] s hs with h | h
      · simp at h
      · exact not_slash_mem_splitSlash t s h
    refine ⟨hgood.1, hgood.2, ?_, hslash⟩
    intro hdd
    subst hdd
    have hhead := cleanStack_rel_dotdot_head (splitSlash t) [] trivial hs
    cases hCs : cleanStack false [] (splitSlash t) with
    | nil => exact hC hCs
    | cons c0 crest =>
      rw [hCs] at hhead
      simp at hhead
      subst hhead
      cases crest with
      | nil =>
        rw [hform, hCs, intercalateSlash_singleton] at h3
        simp [escapesL] at h3
      | cons c1 crest2 =>
        rw [hform, hCs, intercalateSlash_cons₂] at h3
        simp [escapesL, List.isPrefixOf] at h3

/-! ## Claim C1: workspace-root decomposition and the join computation -/

lemma wf_cwd_decomp (cwd : String) (h : WfCwd cwd) :
    ∃ S, (∀ s ∈ S, plainSeg s) ∧ cwd.toList = '/' :: intercalateSlash S ∧
      rootedSegs cwd.toList = S := by
  obtain ⟨hhead, hfix⟩ := h
  have habs : isAbsL cwd.toList = true := by
    cases hl : cwd.toList with
    | nil => rw [hl] at hhead; simp at hhead
    | cons c t =>
      rw [hl] at hhead
      simp at hhead
      simp [isAbsL, hhead]
  have hclean := cleanL_rooted cwd.toList habs
  rw [hfix] at hclean
  refine ⟨cleanStack true [] (splitSlash cwd.toList), ?_, hclean, rfl⟩
  intro s hs
  have hgood := cleanStack_good true (splitSlash cwd.toList) [] (by simp) s hs
  have hslash : '/' ∉ s := by
    rcases cleanStack_mem true (splitSlash cwd.toList) [] s hs with hm | hm
    · simp at hm
    · exact not_slash_mem_splitSlash _ s hm
  have hnd : s ≠ ['.', '.'] := by
    intro hc
    exact cleanStack_rooted_no_dotdot (splitSlash cwd.toList) [] (by simp) (hc ▸ hs)
  exact ⟨hgood.1, hgood.2, hnd, hslash⟩

lemma filter_keepSeg_of_plain (X : List (List Char)) (h : ∀ s ∈ X, plainSeg s) :
    X.filter keepSeg = X := by
  induction X with
  | nil => rfl
  | cons s rest ih =>
    have hp := h s (List.mem_cons_self s rest)
    have hk : keepSeg s = true := by
      simp [keepSeg, hp.1, hp.2.1]
    rw [List.filter_cons, if_pos hk, ih (fun x hx => h x (List.mem_cons_of_mem s hx))]

lemma cleanStack_root_helper (A : List (List Char)) (hplain : ∀ s ∈ A, plainSeg s)
    (E : List (List Char)) (hE : ∀ e ∈ E, e = []) :
    cleanStack true [] (E ++ A) = A := by
  rw [cleanStack_of_no_dotdot true (E ++ A) [] ?_]
  · rw [List.filter_append, filter_keepSeg_of_plain A hplain]
    have hEf : E.filter keepSeg = [] := by
      rw [List.filter_eq_nil_iff]
      intro e he
      rw [hE e he]
      decide
    rw [hEf]
    simp
  · intro s hs
    rcases List.mem_append.mp hs with hm | hm
    · rw [hE s hm]
      simp
    · exact (hplain s hm).2.2.1

lemma rooted_concat (S C : List (List Char)) (hS : ∀ s ∈ S, plainSeg s)
    (hC : ∀ s ∈ C, plainSeg s) (hCne : C ≠ []) :
    cleanL (('/' :: intercalateSlash S) ++ '/' :: intercalateSlash C) =
      '/' :: intercalateSlash (S ++ C) ∧
    cleanL ('/' :: intercalateSlash (S ++ C)) = '/' :: intercalateSlash (S ++ C) ∧
    rootedSegs ('/' :: intercalateSlash (S ++ C)) = S ++ C := by
  have hSslash : ∀ s ∈ S, '/' ∉ s := fun s hs => (hS s hs).2.2.2
  have hCslash : ∀ s ∈ C, '/' ∉ s := fun s hs => (hC s hs).2.2.2
  have hSCplain : ∀ s ∈ S ++ C, plainSeg s := by
    intro s hs
    rcases List.mem_append.mp hs with hm | hm
    exacts [hS s hm, hC s hm]
  have hSCslash : ∀ s ∈ S ++ C, '/' ∉ s := fun s hs => (hSCplain s hs).2.2.2
  have hSCne : S ++ C ≠ [] := by
    intro hc
    rw [List.append_eq_nil] at hc
    exact hCne hc.2
  have hstack1 :
      cleanStack true []
        (splitSlash (('/' :: intercalateSlash S) ++ '/' :: intercalateSlash C)) = S ++ C := by
    rw [show ('/' :: intercalateSlash S) ++ '/' :: intercalateSlash C =
        '/' :: (intercalateSlash S ++ '/' :: intercalateSlash C) from rfl]
    rw [splitSlash, if_pos rfl, splitSlash_append,
      splitSlash_intercalateSlash S hSslash, splitSlash_intercalateSlash C hCslash,
      if_neg hCne]
    by_cases hSe : S = []
    · subst hSe
      rw [if_pos rfl]
      have hre : (([] : List Char) :: ([[]] ++ C)) = ([[], []] : List (List Char)) ++ C := rfl
      rw [hre, cleanStack_root_helper C hC [[], []] (by intro e he; simp at he; tauto)]
      simp
    · rw [if_neg hSe]
      have hre : (([] : List Char) :: (S ++ C)) = ([[]] : List (List Char)) ++ (S ++ C) := rfl
      rw [hre, cleanStack_root_helper (S ++ C) hSCplain [[]] (by intro e he; simpa using he)]
  have hstack2 :
      cleanStack true [] (splitSlash ('/' :: intercalateSlash (S ++ C))) = S ++ C := by
    rw [splitSlash, if_pos rfl, splitSlash_intercalateSlash (S ++ C) hSCslash,
      if_neg hSCne]
    have hre : (([] : List Char) :: (S ++ C)) = ([[]] : List (List Char)) ++ (S ++ C) := rfl
    rw [hre, cleanStack_root_helper (S ++ C) hSCplain [[]] (by intro e he; simpa using he)]
  refine ⟨?_, ?_, ?_⟩
  · rw [cleanL_rooted _ (by simp [isAbsL]), hstack1]
  · rw [cleanL_rooted _ (by simp [isAbsL]), hstack2]
  · rw [rootedSegs, hstack2]

lemma resolve_core_within (cwd pathArg : String) (hwf : WfCwd cwd)
    (h0 : goTrimSpaceL pathArg.toList ≠ [])
    (h1 : isAbsL (goTrimSpaceL pathArg.toList) = false)
    (h2 : cleanL (goTrimSpaceL pathArg.toList) ≠ ['.'])
    (h3 : escapesL (cleanL (goTrimSpaceL pathArg.toList)) = false) :
    withinRoot cwd
      (String.mk (goAbsL cwd.toList
        (goJoinL cwd.toList (cleanL (goTrimSpaceL pathArg.toList))))) := by
  obtain ⟨S, hSplain, hcwdeq, hSroot⟩ := wf_cwd_decomp cwd hwf
  obtain ⟨C, hCne, hCplain, hceq, -⟩ := clean_rel_decomp _ h0 h1 h2 h3
  have hcwdne : cwd.toList ≠ [] := by rw [hcwdeq]; simp
  have hcne : cleanL (goTrimSpaceL pathArg.toList) ≠ [] := by
    rw [hceq]
    exact intercalateSlash_plain_ne_nil C hCne hCplain
  obtain ⟨ha, hb, hc⟩ := rooted_concat S C hSplain hCplain hCne
  have hjoin : goJoinL cwd.toList (cleanL (goTrimSpaceL pathArg.toList)) =
      '/' :: intercalateSlash (S ++ C) := by
    rw [goJoinL, if_neg (fun hcon => hcwdne hcon.1), if_neg hcwdne, if_neg hcne,
      hcwdeq, hceq]
    exact ha
  have habs : goAbsL cwd.toList
      (goJoinL cwd.toList (cleanL (goTrimSpaceL pathArg.toList))) =
      '/' :: intercalateSlash (S ++ C) := by
    rw [hjoin, goAbsL, if_pos (by simp [isAbsL])]
    exact hb
  rw [habs]
  unfold withinRoot
  rw [hSroot]
  rw [show (String.mk ('/' :: intercalateSlash (S ++ C))).toList =
    '/' :: intercalateSlash (S ++ C) from rfl]
  rw [hc]
  exact ⟨C, rfl⟩

/-- Claim C1: every path argument whose (trimmed, then) cleaned form is
`..` or starts with `../` is rejected by both resolvers with the
path-escape error, every absolute path argument is rejected with the
must-be-relative error, and whenever either resolver succeeds against a
well-formed workspace root, the returned absolute path stays inside the
workspace root. -/
theorem resolve_workspace_path_claim :
    ∀ (cwd pathArg : String) (stat : String → Option Bool),
    (isAbsL pathArg.toList = true →
      resolveWorkspaceFileForWrite cwd pathArg =
        .error "path must be relative to the current workspace" ∧
      resolveWorkspaceFile stat cwd pathArg =
        .error "path must be relative to the current workspace") ∧
    (escapesL (cleanL (goTrimSpaceL pathArg.toList)) = true →
      resolveWorkspaceFileForWrite cwd pathArg =
        .error "path escapes the current workspace" ∧
      resolveWorkspaceFile stat cwd pathArg =
        .error "path escapes the current workspace") ∧
    (WfCwd cwd → ∀ abs r, resolveWorkspaceFileForWrite cwd pathArg = .ok (abs, r) →
      withinRoot cwd abs) ∧
    (WfCwd cwd → ∀ abs r, resolveWorkspaceFile stat cwd pathArg = .ok (abs, r) →
      withinRoot cwd abs) := by
  intro cwd pathArg stat
  refine ⟨?_, ?_, ?_, ?_⟩
  · intro habs
    have h1 : isAbsL (goTrimSpaceL pathArg.toList) = true := isAbsL_goTrimSpaceL _ habs
    have h0 : goTrimSpaceL pathArg.toList ≠ [] := by
      intro hc
      rw [hc] at h1
      simp [isAbsL] at h1
    constructor
    · rw [resolveWorkspaceFileForWrite, if_neg h0, if_pos h1]
    · rw [resolveWorkspaceFile, if_neg h0, if_pos h1]
  · intro hesc
    have h0 : goTrimSpaceL pathArg.toList ≠ [] := by
      intro hc
      rw [hc] at hesc
      exact absurd hesc (by decide)
    have h1 : ¬ (isAbsL (goTrimSpaceL pathArg.toList) = true) := by
      intro hA
      rw [cleanL_rooted _ hA, escapesL_slash] at hesc
      exact Bool.noConfusion hesc
    have h2 : ¬ (cleanL (goTrimSpaceL pathArg.toList) = ['.']) := by
      intro hdot
      rw [hdot] at hesc
      exact absurd hesc (by decide)
    constructor
    · rw [resolveWorkspaceFileForWrite, if_neg h0, if_neg h1, if_neg h2, if_pos hesc]
    · rw [resolveWorkspaceFile, if_neg h0, if_neg h1, if_neg h2, if_pos hesc]
  · intro hwf abs r hok
    rw [resolveWorkspaceFileForWrite] at hok
    by_cases h0 : goTrimSpaceL pathArg.toList = []
    · rw [if_pos h0] at hok
      exact absurd hok (by simp)
    rw [if_neg h0] at hok
    by_cases h1 : isAbsL (goTrimSpaceL pathArg.toList) = true
    · rw [if_pos h1] at hok
      exact absurd hok (by simp)
    rw [if_neg h1] at hok
    by_cases h2 : cleanL (goTrimSpaceL pathArg.toList) = ['.']
    · rw [if_pos h2] at hok
      exact absurd hok (by simp)
    rw [if_neg h2] at hok
    by_cases h3 : escapesL (cleanL (goTrimSpaceL pathArg.toList)) = true
    · rw [if_pos h3] at hok
      exact absurd hok (by simp)
    rw [if_neg h3] at hok
    cases hrel : relL cwd.toList
        (goAbsL cwd.toList (goJoinL cwd.toList (cleanL (goTrimSpaceL pathArg.toList)))) with
    | error e =>
      rw [hrel] at hok
      simp at hok
    | ok rr =>
      rw [hrel] at hok
      simp only [] at hok
      by_cases h4 : escapesL rr = true
      · rw [if_pos h4] at hok
        exact absurd hok (by simp)
      · rw [if_neg h4] at hok
        simp only [Except.ok.injEq, Prod.mk.injEq] at hok
        obtain ⟨hA, -⟩ := hok
        subst hA
        exact resolve_core_within cwd pathArg hwf h0 (by simpa using h1) h2
          (by simpa using h3)
  · intro hwf abs r hok
    rw [resolveWorkspaceFile] at hok
    by_cases h0 : goTrimSpaceL pathArg.toList = []
    · rw [if_pos h0] at hok
      exact absurd hok (by simp)
    rw [if_neg h0] at hok
    by_cases h1 : isAbsL (goTrimSpaceL pathArg.toList) = true
    · rw [if_pos h1] at hok
      exact absurd hok (by simp)
    rw [if_neg h1] at hok
    by_cases h2 : cleanL (goTrimSpaceL pathArg.toList) = ['.']
    · rw [if_pos h2] at hok
      exact absurd hok (by simp)
    rw [if_neg h2] at hok
    by_cases h3 : escapesL (cleanL (goTrimSpaceL pathArg.toList)) = true
    · rw [if_pos h3] at hok
      exact absurd hok (by simp)
    rw [if_neg h3] at hok
    cases hrel : relL cwd.toList
        (goAbsL cwd.toList (goJoinL cwd.toList (cleanL (goTrimSpaceL pathArg.toList)))) with
    | error e =>
      rw [hrel] at hok
      simp at hok
    | ok rr =>
      rw [hrel] at hok
      simp only [] at hok
      by_cases h4 : escapesL rr = true
      · rw [if_pos h4] at hok
        exact absurd hok (by simp)
      · rw [if_neg h4] at hok
        cases hstat : stat (String.mk (goAbsL cwd.toList
            (goJoinL cwd.toList (cleanL (goTrimSpaceL pathArg.toList))))) with
        | none =>
          rw [hstat] at hok
          simp at hok
        | some b =>
          rw [hstat] at hok
          cases b with
          | true => simp at hok
          | false =>
            simp only [Except.ok.injEq, Prod.mk.injEq] at hok
            obtain ⟨hA, -⟩ := hok
            subst hA
            exact resolve_core_within cwd pathArg hwf h0 (by simpa using h1) h2
              (by simpa using h3)

/-- Claim C1, witness: `../x` and an absolute path are rejected, and the
successful resolution of `docs/readme.md` under root `/ws` stays inside
the workspace. -/
theorem resolve_workspace_path_claim_witness :
    resolveWorkspaceFileForWrite "/ws" "../x" = .error "path escapes the current workspace" ∧
    resolveWorkspaceFile (fun _ => some false) "/ws" "/etc/passwd" =
      .error "path must be relative to the current workspace" ∧
    withinRoot "/ws" "/ws/docs/readme.md" :=
  ⟨((resolve_workspace_path_claim "/ws" "../x" (fun _ => some false)).2.1 (by decide)).1,
   ((resolve_workspace_path_claim "/ws" "/etc/passwd" (fun _ => some false)).1 (by decide)).2,
   (resolve_workspace_path_claim "/ws" "docs/readme.md" (fun _ => some false)).2.2.1
     ⟨by decide, by decide⟩ "/ws/docs/readme.md" "docs/readme.md" (by decide)⟩
